import Mathlib

/-
Shallow embedding of the JSON account codec in cosmrs/src/auth.rs: the
BaseAccount struct, its wire shape BaseAccountJson, the string-codec
adapter for the u64 fields, and the parts of serde_json the codec relies
on (compact rendering, text parsing, struct field extraction).

Modelling notes:
- Rust u64 values are Nat; the wire decode enforces the u64 range exactly
  as u64::from_str does, and theorems about arbitrary in-memory accounts
  carry the range bound as a hypothesis.
- JSON numbers are modelled as integers only: the account codec never
  produces a JSON number (its numeric fields travel as decimal strings),
  so float literals, which serde_json would accept inside an opaque
  pub_key value, are outside the claims' scope; the model's number
  grammar rejects a fractional part or an exponent.
- serde_json's recursion-depth guard is not modelled; no claim reaches it.
-/

set_option maxRecDepth 100000

namespace Cosmrs

/-- The serde_json value tree. Arrays and objects keep their entries in
input order, and duplicate object keys are preserved: rejecting
duplicates is the struct deserializer's job, as in derived serde code. -/
inductive Json where
  | null
  | bool (b : Bool)
  | num (n : Int)
  | str (s : List Char)
  | arr (xs : List Json)
  | obj (fs : List (List Char × Json))

/-! ### Decimal rendering (u64's Display, used by `string::serialize`) -/

def digChar (d : Nat) : Char := Char.ofNat (48 + d)

def decGo : Nat → Nat → List Char
  | 0, _ => []
  | fuel + 1, n => if n < 10 then [digChar n] else decGo fuel (n / 10) ++ [digChar (n % 10)]

/-- Decimal digits of `n`, most significant first: the text that u64's
Display writes for the numeric fields. -/
def decChars (n : Nat) : List Char := decGo (n + 1) n

/-! ### u64::from_str (core::num), used by `string::deserialize` -/

/-- The error kinds core::num's integer parsing can report for u64. -/
inductive IntErrKind where
  | empty
  | invalidDigit
  | posOverflow
deriving DecidableEq

def u64Max : Nat := 18446744073709551615

def digVal (c : Char) : Option Nat :=
  if 48 ≤ c.toNat ∧ c.toNat ≤ 57 then some (c.toNat - 48) else none

def fromStrLoop : Nat → List Char → Except IntErrKind Nat
  | acc, [] => .ok acc
  | acc, c :: cs =>
    match digVal c with
    | none => .error .invalidDigit
    | some d =>
      if acc * 10 + d ≤ u64Max then fromStrLoop (acc * 10 + d) cs
      else .error .posOverflow

/-- u64::from_str: an optional single leading '+' (a bare sign alone is
rejected), then decimal digits accumulated with an overflow check; '-' is
not special for an unsigned target and fails as a plain non-digit. -/
def u64FromStr : List Char → Except IntErrKind Nat
  | [] => .error .empty
  | c :: cs =>
    if c = '+' then
      match cs with
      | [] => .error .invalidDigit
      | _ :: _ => fromStrLoop 0 cs
    else fromStrLoop 0 (c :: cs)

example : u64FromStr ('+' :: ['4', '2']) = .ok 42 := rfl
example : u64FromStr ['-', '1'] = .error .invalidDigit := rfl
example : u64FromStr [] = .error .empty := rfl
example : decChars 2932070 = ['2', '9', '3', '2', '0', '7', '0'] := by decide

/-! ### serde_json compact rendering -/

def hexDig (d : Nat) : Char := if d < 10 then Char.ofNat (48 + d) else Char.ofNat (87 + d)

/-- serde_json's string escaping: quote and backslash get a two-character
escape, control characters below 0x20 get the short escapes for
backspace, tab, newline, form feed and carriage return and a lowercase
four-digit hex escape otherwise; everything else is emitted raw (the
solidus is not escaped). -/
def escChar (c : Char) : List Char :=
  if c = '"' then ['\\', '"']
  else if c = '\\' then ['\\', '\\']
  else if c.toNat < 32 then
    if c.toNat = 8 then ['\\', 'b']
    else if c.toNat = 9 then ['\\', 't']
    else if c.toNat = 10 then ['\\', 'n']
    else if c.toNat = 12 then ['\\', 'f']
    else if c.toNat = 13 then ['\\', 'r']
    else ['\\', 'u', '0', '0', hexDig (c.toNat / 16), hexDig (c.toNat % 16)]
  else [c]

def escBody : List Char → List Char
  | [] => []
  | c :: cs => escChar c ++ escBody cs

def strQuote (s : List Char) : List Char := '"' :: (escBody s ++ ['"'])

/-- An integer's decimal text: an optional minus sign, then digits. -/
def intChars (n : Int) : List Char :=
  if n < 0 then '-' :: decChars n.natAbs else decChars n.natAbs

mutual
/-- serde_json's compact serialization of a value (`serde_json::to_string`):
no whitespace, object fields in list order. -/
def render : Json → List Char
  | .num n => intChars n
  | .str s => strQuote s
  | .arr xs => '[' :: (renderItems xs ++ [']'])
  | .obj fs => '{' :: (renderPairs fs ++ ['}'])
  | .bool b => if b then "true".data else "false".data
  | .null => "null".data
def renderItems : List Json → List Char
  | [] => []
  | [x] => render x
  | x :: xs => render x ++ ',' :: renderItems xs
def renderPairs : List (List Char × Json) → List Char
  | [] => []
  | [(k, v)] => strQuote k ++ ':' :: render v
  | (k, v) :: fs => strQuote k ++ ':' :: render v ++ ',' :: renderPairs fs
end

/-! ### serde_json text parsing (`serde_json::from_str`)

The recursion over nested values is structural on a fuel counter; the
top-level entry point supplies `input length + 1`, which the round-trip
development below proves sufficient. -/

/-- Syntax-level parse failures (serde_json's error cases, by shape). -/
inductive PErr where
  | eofWhileParsing
  | unexpected (c : Char)
  | badEscape
  | loneSurrogate
  | controlChar
  | badNumber
  | expectedColon
  | expectedKey
  | expectedCommaOrClose
  | trailingChars
  | fuelOut
deriving DecidableEq

def dropWs : List Char → List Char
  | [] => []
  | c :: cs =>
    if c.toNat = 32 ∨ c.toNat = 9 ∨ c.toNat = 10 ∨ c.toNat = 13 then dropWs cs
    else c :: cs

def hexVal (c : Char) : Option Nat :=
  if 48 ≤ c.toNat ∧ c.toNat ≤ 57 then some (c.toNat - 48)
  else if 97 ≤ c.toNat ∧ c.toNat ≤ 102 then some (c.toNat - 87)
  else if 65 ≤ c.toNat ∧ c.toNat ≤ 70 then some (c.toNat - 55)
  else none

def hex4 (a b c d : Char) : Option Nat :=
  match hexVal a, hexVal b, hexVal c, hexVal d with
  | some x, some y, some z, some w => some (((x * 16 + y) * 16 + z) * 16 + w)
  | _, _, _, _ => none

/-- A `\u` escape: four hex digits; a high surrogate must be followed by a
`\u`-escaped low surrogate (combined into the supplementary code point), a
lone or leading low surrogate is an error, as in serde_json's default
string handling. -/
def readHex : List Char → Except PErr (Char × List Char)
  | a :: b :: c :: d :: rest =>
    match hex4 a b c d with
    | none => .error .badEscape
    | some n =>
      if n < 55296 then .ok (Char.ofNat n, rest)
      else if 57343 < n then .ok (Char.ofNat n, rest)
      else if 56320 ≤ n then .error .loneSurrogate
      else
        match rest with
        | '\\' :: 'u' :: e :: f :: g :: h :: rest2 =>
          match hex4 e f g h with
          | none => .error .badEscape
          | some m =>
            if 56320 ≤ m ∧ m ≤ 57343 then
              .ok (Char.ofNat (65536 + (n - 55296) * 1024 + (m - 56320)), rest2)
            else .error .loneSurrogate
        | _ => .error .loneSurrogate
  | _ => .error .eofWhileParsing

/-- One escape sequence after the backslash. -/
def readEsc : List Char → Except PErr (Char × List Char)
  | [] => .error .eofWhileParsing
  | 'u' :: rest => readHex rest
  | c :: rest =>
    if c = '"' then .ok ('"', rest)
    else if c = '\\' then .ok ('\\', rest)
    else if c = '/' then .ok ('/', rest)
    else if c = 'b' then .ok (Char.ofNat 8, rest)
    else if c = 'f' then .ok (Char.ofNat 12, rest)
    else if c = 'n' then .ok (Char.ofNat 10, rest)
    else if c = 'r' then .ok (Char.ofNat 13, rest)
    else if c = 't' then .ok (Char.ofNat 9, rest)
    else .error .badEscape

/-- String body after the opening quote: raw characters until the closing
quote, escapes via `readEsc`, raw control characters rejected. -/
def readStr : Nat → List Char → Except PErr (List Char × List Char)
  | 0, _ => .error .fuelOut
  | _ + 1, [] => .error .eofWhileParsing
  | fuel + 1, c :: rest =>
    if c = '"' then .ok ([], rest)
    else if c = '\\' then
      match readEsc rest with
      | .error e => .error e
      | .ok (ec, rest2) =>
        match readStr fuel rest2 with
        | .error e => .error e
        | .ok (content, restF) => .ok (ec :: content, restF)
    else if c.toNat < 32 then .error .controlChar
    else
      match readStr fuel rest with
      | .error e => .error e
      | .ok (content, restF) => .ok (c :: content, restF)

def takeDigits : List Char → (List Char × List Char)
  | [] => ([], [])
  | c :: cs =>
    if (digVal c).isSome then
      let p := takeDigits cs
      (c :: p.1, p.2)
    else ([], c :: cs)

def digitsNat (ds : List Char) : Nat := ds.foldl (fun a c => a * 10 + (c.toNat - 48)) 0

/-- After the digit run: the model's number grammar stops here and rejects
a fractional part or an exponent (see the header note on numbers). -/
def numTail (n : Nat) (rest : List Char) : Except PErr (Nat × List Char) :=
  match rest with
  | [] => .ok (n, [])
  | c :: _ => if c = '.' ∨ c = 'e' ∨ c = 'E' then .error .badNumber else .ok (n, rest)

/-- An unsigned integer literal: `0` alone, or a nonzero digit followed by
digits (leading zeros rejected, as serde_json does). -/
def readNatNum : List Char → Except PErr (Nat × List Char)
  | [] => .error .eofWhileParsing
  | c :: cs =>
    if c = '0' then
      match cs with
      | d :: _ => if (digVal d).isSome then .error .badNumber else numTail 0 cs
      | [] => .ok (0, [])
    else if (digVal c).isSome then
      let p := takeDigits cs
      numTail (digitsNat (c :: p.1)) p.2
    else .error (.unexpected c)

def readNum (s : List Char) : Except PErr (Json × List Char) :=
  match s with
  | '-' :: rest =>
    match readNatNum rest with
    | .error e => .error e
    | .ok (n, r) => .ok (.num (-(n : Int)), r)
  | _ =>
    match readNatNum s with
    | .error e => .error e
    | .ok (n, r) => .ok (.num (n : Int), r)

def afterLit : List Char → List Char → Except PErr (List Char)
  | [], s => .ok s
  | _ :: _, [] => .error .eofWhileParsing
  | c :: cs, d :: ds => if d = c then afterLit cs ds else .error (.unexpected d)

mutual
def readValue : Nat → List Char → Except PErr (Json × List Char)
  | 0, _ => .error .fuelOut
  | fuel + 1, s =>
    match dropWs s with
    | [] => .error .eofWhileParsing
    | '"' :: r =>
      match readStr (r.length + 1) r with
      | .error e => .error e
      | .ok (cs, rest) => .ok (.str cs, rest)
    | '{' :: r =>
      match dropWs r with
      | '}' :: r2 => .ok (.obj [], r2)
      | r2 =>
        match readPairs fuel r2 with
        | .error e => .error e
        | .ok (fs, rest) => .ok (.obj fs, rest)
    | '[' :: r =>
      match dropWs r with
      | ']' :: r2 => .ok (.arr [], r2)
      | r2 =>
        match readItems fuel r2 with
        | .error e => .error e
        | .ok (xs, rest) => .ok (.arr xs, rest)
    | 'n' :: r =>
      match afterLit ['u', 'l', 'l'] r with
      | .error e => .error e
      | .ok rest => .ok (.null, rest)
    | 't' :: r =>
      match afterLit ['r', 'u', 'e'] r with
      | .error e => .error e
      | .ok rest => .ok (.bool true, rest)
    | 'f' :: r =>
      match afterLit ['a', 'l', 's', 'e'] r with
      | .error e => .error e
      | .ok rest => .ok (.bool false, rest)
    | c :: r =>
      if c = '-' ∨ (digVal c).isSome then readNum (c :: r)
      else .error (.unexpected c)
def readItems : Nat → List Char → Except PErr (List Json × List Char)
  | 0, _ => .error .fuelOut
  | fuel + 1, s =>
    match readValue fuel s with
    | .error e => .error e
    | .ok (v, r) =>
      match dropWs r with
      | ',' :: r2 =>
        match readItems fuel r2 with
        | .error e => .error e
        | .ok (xs, rest) => .ok (v :: xs, rest)
      | ']' :: r2 => .ok ([v], r2)
      | _ => .error .expectedCommaOrClose
def readPairs : Nat → List Char → Except PErr (List (List Char × Json) × List Char)
  | 0, _ => .error .fuelOut
  | fuel + 1, s =>
    match dropWs s with
    | '"' :: r =>
      match readStr (r.length + 1) r with
      | .error e => .error e
      | .ok (k, r1) =>
        match dropWs r1 with
        | ':' :: r2 =>
          match readValue fuel r2 with
          | .error e => .error e
          | .ok (v, r3) =>
            match dropWs r3 with
            | ',' :: r4 =>
              match readPairs fuel r4 with
              | .error e => .error e
              | .ok (fs, rest) => .ok ((k, v) :: fs, rest)
            | '}' :: r4 => .ok ([(k, v)], r4)
            | _ => .error .expectedCommaOrClose
        | _ => .error .expectedColon
    | _ => .error .expectedKey
end

/-- serde_json::from_str on a character list: one value, then only
whitespace may remain. -/
def from_str (s : List Char) : Except PErr Json :=
  match readValue (s.length + 1) s with
  | .error e => .error e
  | .ok (v, rest) =>
    match dropWs rest with
    | [] => .ok v
    | _ :: _ => .error .trailingChars

example :
    from_str ("[null,true,\"a\\nb\",\x7b\"k\":[-12,0]\x7d]".data) =
      .ok (.arr [.null, .bool true, .str ['a', Char.ofNat 10, 'b'],
        .obj [(['k'], .arr [.num (-12), .num 0])]]) := rfl

example : from_str ("\x7b\"a\":1".data) = .error .expectedCommaOrClose := rfl
example : from_str (" 1 2".data) = .error .trailingChars := rfl
example : from_str ("1.5".data) = .error .badNumber := rfl
example : from_str ("01".data) = .error .badNumber := rfl
example : render (.obj [(['a'], .num 1)]) = "\x7b\"a\":1\x7d".data := rfl

/-! ### The account codec (cosmrs/src/auth.rs) -/

/-- Decode errors surfaced by `BaseAccount::from_json`. In the Rust code
they are all one `serde_json::Error`; the constructors below keep the
failure shapes apart (text not JSON; wrong JSON type for a field; a
required field absent; a field seen twice; a sequence too short for the
struct's field count; a numeric string that u64::from_str rejects). -/
inductive DeErr where
  | invalidJson (e : PErr)
  | invalidType (field : List Char)
  | missingField (field : List Char)
  | duplicateField (field : List Char)
  | invalidLength (got : Nat)
  | malformedNumber (field : List Char) (k : IntErrKind)
deriving DecidableEq

/-! The wire field names (`#[serde(rename = "@type")]` for the tag, the
field identifiers for the rest). -/

def tagKey : List Char := "@type".data
def numKey : List Char := "account_number".data
def addrKey : List Char := "address".data
def pkKey : List Char := "pub_key".data
def seqKey : List Char := "sequence".data

/-- Modelled from the spec: the public-key type lives in `crate::crypto`,
outside this repository's sources. The spec's wire table says `pub_key`
is "object or null", "delegated to the public-key value's own wire
shape", and the key is consumed opaquely ("black-box serializable
value"). The model therefore treats a public key as the JSON object it
travels as: deserializing accepts exactly a JSON object and keeps it,
serializing emits it back unchanged. -/
structure PublicKey where
  fields : List (List Char × Json)

def PublicKey.toValue (pk : PublicKey) : Json := .obj pk.fields

def PublicKey.fromValue (v : Json) : Except DeErr PublicKey :=
  match v with
  | .obj fs => .ok ⟨fs⟩
  | _ => .error (.invalidType pkKey)

/-- `Option<PublicKey>` deserialization: serde maps JSON null to `None`
before the inner type sees the value. -/
def optKeyFromValue (v : Json) : Except DeErr (Option PublicKey) :=
  match v with
  | .null => .ok none
  | v =>
    match PublicKey.fromValue v with
    | .error e => .error e
    | .ok pk => .ok (some pk)

def optKeyToValue : Option PublicKey → Json
  | none => .null
  | some pk => pk.toValue

/-- The in-memory struct `BaseAccount` (u64 fields as Nat; the wire
decode enforces the u64 range, and theorems over arbitrary accounts
carry it as a hypothesis). -/
structure BaseAccount where
  address : List Char
  pub_key : Option PublicKey
  account_number : Nat
  sequence : Nat

def BaseAccount.TYPE_URL : List Char := "/cosmos.auth.v1beta1.BaseAccount".data

/-- The wire shape `BaseAccountJson` (field declaration order `@type`,
`account_number`, `address`, `pub_key`, `sequence`, which fixes the
serialization order). -/
structure BaseAccountJson where
  type_url : List Char
  account_number : Nat
  address : List Char
  pub_key : Option PublicKey
  sequence : Nat

/-- The `string` module of auth.rs, instantiated at u64:
`serializer.collect_str(value)` renders the integer's Display text. -/
def string.serialize (n : Nat) : Json := .str (decChars n)

/-- The `string` module's deserialize: `String::deserialize` (so the JSON
value must be a string) followed by `str::parse::<u64>`. -/
def string.deserialize (field : List Char) (v : Json) : Except DeErr Nat :=
  match v with
  | .str s =>
    match u64FromStr s with
    | .ok n => .ok n
    | .error k => .error (.malformedNumber field k)
  | _ => .error (.invalidType field)

/-- `String` field deserialization: only a JSON string is accepted. -/
def strFromValue (field : List Char) (v : Json) : Except DeErr (List Char) :=
  match v with
  | .str s => .ok s
  | _ => .error (.invalidType field)

/-- The in-flight state of derived struct deserialization: one slot per
declared field, filled as the map's entries stream past. -/
structure FieldSlots where
  type_url : Option (List Char)
  account_number : Option Nat
  address : Option (List Char)
  pub_key : Option (Option PublicKey)
  sequence : Option Nat

def initSlots : FieldSlots := ⟨none, none, none, none, none⟩

/-- One map entry, as derived serde code handles it: a known key is
checked for a duplicate and then its value is decoded into the slot; an
unknown key is ignored. -/
def putField (sl : FieldSlots) (k : List Char) (v : Json) : Except DeErr FieldSlots :=
  if k = tagKey then
    match sl.type_url with
    | some _ => .error (.duplicateField tagKey)
    | none =>
      match strFromValue tagKey v with
      | .error e => .error e
      | .ok s => .ok { sl with type_url := some s }
  else if k = numKey then
    match sl.account_number with
    | some _ => .error (.duplicateField numKey)
    | none =>
      match string.deserialize numKey v with
      | .error e => .error e
      | .ok n => .ok { sl with account_number := some n }
  else if k = addrKey then
    match sl.address with
    | some _ => .error (.duplicateField addrKey)
    | none =>
      match strFromValue addrKey v with
      | .error e => .error e
      | .ok s => .ok { sl with address := some s }
  else if k = pkKey then
    match sl.pub_key with
    | some _ => .error (.duplicateField pkKey)
    | none =>
      match optKeyFromValue v with
      | .error e => .error e
      | .ok p => .ok { sl with pub_key := some p }
  else if k = seqKey then
    match sl.sequence with
    | some _ => .error (.duplicateField seqKey)
    | none =>
      match string.deserialize seqKey v with
      | .error e => .error e
      | .ok n => .ok { sl with sequence := some n }
  else .ok sl

def readFields (sl : FieldSlots) : List (List Char × Json) → Except DeErr FieldSlots
  | [] => .ok sl
  | (k, v) :: fs =>
    match putField sl k v with
    | .error e => .error e
    | .ok sl2 => readFields sl2 fs

/-- The derived `visit_seq` for `BaseAccountJson`: serde_json's
`deserialize_struct` also accepts a JSON array, which fills the
declared fields positionally (tag, account_number, address, pub_key,
sequence). Each element is decoded before the next is demanded; when
the array runs out early the error is serde's invalid-length carrying
the number of fields already read (the `Option` field is not defaulted
in the positional form), and an element beyond the fifth fails
serde_json's end-of-sequence check as trailing input. -/
def BaseAccountJson.fromSeq (xs : List Json) : Except DeErr BaseAccountJson :=
  match xs with
  | [] => .error (.invalidLength 0)
  | v0 :: r0 =>
    match strFromValue tagKey v0 with
    | .error e => .error e
    | .ok t =>
      match r0 with
      | [] => .error (.invalidLength 1)
      | v1 :: r1 =>
        match string.deserialize numKey v1 with
        | .error e => .error e
        | .ok an =>
          match r1 with
          | [] => .error (.invalidLength 2)
          | v2 :: r2 =>
            match strFromValue addrKey v2 with
            | .error e => .error e
            | .ok ad =>
              match r2 with
              | [] => .error (.invalidLength 3)
              | v3 :: r3 =>
                match optKeyFromValue v3 with
                | .error e => .error e
                | .ok pk =>
                  match r3 with
                  | [] => .error (.invalidLength 4)
                  | v4 :: r4 =>
                    match string.deserialize seqKey v4 with
                    | .error e => .error e
                    | .ok sq =>
                      match r4 with
                      | [] => .ok ⟨t, an, ad, pk, sq⟩
                      | _ :: _ => .error (.invalidJson .trailingChars)

/-- Derived `Deserialize` for `BaseAccountJson` from a JSON value.
serde's `deserialize_struct` accepts two input shapes: an object, whose
entries fill the slots by name (afterwards each required field must be
present, while a missing `pub_key` defaults to `None`, serde's special
case for `Option` fields in maps), and an array, which fills the fields
positionally via `BaseAccountJson.fromSeq`; every other JSON type is an
invalid-type error. -/
def BaseAccountJson.fromValue (v : Json) : Except DeErr BaseAccountJson :=
  match v with
  | .obj fs =>
    match readFields initSlots fs with
    | .error e => .error e
    | .ok sl =>
      match sl.type_url with
      | none => .error (.missingField tagKey)
      | some t =>
        match sl.account_number with
        | none => .error (.missingField numKey)
        | some an =>
          match sl.address with
          | none => .error (.missingField addrKey)
          | some ad =>
            match sl.sequence with
            | none => .error (.missingField seqKey)
            | some sq => .ok ⟨t, an, ad, sl.pub_key.getD none, sq⟩
  | .arr xs => BaseAccountJson.fromSeq xs
  | _ => .error (.invalidType "BaseAccountJson".data)

/-- Derived `Serialize` for `BaseAccountJson`: fields in declaration
order, `pub_key` as null when `None` (no skip attribute on the field). -/
def BaseAccountJson.toValue (j : BaseAccountJson) : Json :=
  .obj [(tagKey, .str j.type_url),
        (numKey, string.serialize j.account_number),
        (addrKey, .str j.address),
        (pkKey, optKeyToValue j.pub_key),
        (seqKey, string.serialize j.sequence)]

/-- `From<&BaseAccount> for BaseAccountJson`: the tag is the fixed
constant, everything else is copied. -/
def BaseAccountJson.from (a : BaseAccount) : BaseAccountJson :=
  { type_url := BaseAccount.TYPE_URL
    address := a.address
    pub_key := a.pub_key
    account_number := a.account_number
    sequence := a.sequence }

/-- `TryFrom<&BaseAccountJson> for BaseAccount` (auth.rs lines 86-97):
builds the account from the four data fields, dropping the tag. -/
def BaseAccount.try_from (j : BaseAccountJson) : Except DeErr BaseAccount :=
  .ok { address := j.address
        pub_key := j.pub_key
        account_number := j.account_number
        sequence := j.sequence }

/-- Deserializing `BaseAccount` (the `try_from = "BaseAccountJson"` serde
attribute): decode the wire shape, then convert. -/
def BaseAccount.fromValue (v : Json) : Except DeErr BaseAccount :=
  match BaseAccountJson.fromValue v with
  | .error e => .error e
  | .ok j => BaseAccount.try_from j

/-- `BaseAccount::from_json`: serde_json::from_str into the wire shape,
then the (infallible) conversion. -/
def BaseAccount.from_json (s : String) : Except DeErr BaseAccount :=
  match from_str s.data with
  | .error e => .error (.invalidJson e)
  | .ok v => BaseAccount.fromValue v

/-- `BaseAccount::to_json`: serialize through the wire shape (the `into =
"BaseAccountJson"` serde attribute), compactly. -/
def BaseAccount.to_json (a : BaseAccount) : String :=
  ⟨render (BaseAccountJson.from a).toValue⟩

/-- Whether a parsed JSON value is an object carrying the key. -/
def Json.hasKey (v : Json) (k : List Char) : Bool :=
  match v with
  | .obj fs => fs.any (fun f => f.1 == k)
  | _ => false

def EXAMPLE_JSON : String :=
  "\x7b\"@type\":\"/cosmos.auth.v1beta1.BaseAccount\",\"account_number\":\"2932070\",\"address\":\"terra1eml7g3ll6jkyhtfv2g0gvqnzzpy6kjyd7qr302\",\"pub_key\":\x7b\"@type\":\"/cosmos.crypto.secp256k1.PubKey\",\"key\":\"AurYLJpdpq9l3T48uq7+5TrG7ngFa+mq96SNdDVyaIwC\"\x7d,\"sequence\":\"6\"\x7d"

def exampleKey : PublicKey :=
  ⟨[("@type".data, .str "/cosmos.crypto.secp256k1.PubKey".data),
    ("key".data, .str "AurYLJpdpq9l3T48uq7+5TrG7ngFa+mq96SNdDVyaIwC".data)]⟩

def exampleAccount : BaseAccount :=
  { address := "terra1eml7g3ll6jkyhtfv2g0gvqnzzpy6kjyd7qr302".data
    pub_key := some exampleKey
    account_number := 2932070
    sequence := 6 }

example : BaseAccount.from_json EXAMPLE_JSON = .ok exampleAccount := rfl
example : BaseAccount.to_json exampleAccount = EXAMPLE_JSON := rfl

/-! serde's positional (array) input shape, as derived `visit_seq`
accepts it: a five-element array decodes, a short one fails with the
invalid-length error at the field it ran out on. -/

example :
    BaseAccount.from_json "[\"x\",\"1\",\"a\",null,\"2\"]"
      = .ok { address := ['a'], pub_key := none, account_number := 1, sequence := 2 } := rfl
example : BaseAccount.from_json "[\"x\",\"1\"]" = .error (.invalidLength 2) := rfl
example : BaseAccount.from_json "[\"x\",\"1\",\"a\",null,\"2\",null]"
    = .error (.invalidJson .trailingChars) := rfl

/-! ### Decimal text: correctness of `decChars` -/

theorem decGo_irrel : ∀ n f f' : Nat, n < f → n < f' → decGo f n = decGo f' n := by
  intro n
  induction n using Nat.strong_induction_on with
  | _ n ih =>
    intro f f' hf hf'
    obtain ⟨fa, rfl⟩ : ∃ fa, f = fa + 1 := ⟨f - 1, by omega⟩
    obtain ⟨fb, rfl⟩ : ∃ fb, f' = fb + 1 := ⟨f' - 1, by omega⟩
    simp only [decGo]
    by_cases h : n < 10
    · simp [h]
    · have hdiv : n / 10 < n := Nat.div_lt_self (by omega) (by omega)
      simp only [if_neg h]
      rw [ih (n / 10) hdiv fa fb (by omega) (by omega)]

theorem decChars_lt {n : Nat} (h : n < 10) : decChars n = [digChar n] := by
  simp [decChars, decGo, h]

theorem decChars_ge {n : Nat} (h : 10 ≤ n) :
    decChars n = decChars (n / 10) ++ [digChar (n % 10)] := by
  have hdiv : n / 10 < n := Nat.div_lt_self (by omega) (by omega)
  show decGo (n + 1) n = decGo (n / 10 + 1) (n / 10) ++ [digChar (n % 10)]
  rw [show decGo (n + 1) n
      = if n < 10 then [digChar n] else decGo n (n / 10) ++ [digChar (n % 10)] from rfl]
  rw [if_neg (by omega), decGo_irrel (n / 10) n (n / 10 + 1) (by omega) (by omega)]

theorem digChar_toNat {d : Nat} (h : d < 10) : (digChar d).toNat = 48 + d := by
  interval_cases d <;> decide

theorem decChars_digits {n : Nat} : ∀ c ∈ decChars n, 48 ≤ c.toNat ∧ c.toNat ≤ 57 := by
  induction n using Nat.strong_induction_on with
  | _ n ih =>
    by_cases h : n < 10
    · rw [decChars_lt h]
      intro c hc
      rw [List.mem_singleton] at hc
      subst hc
      rw [digChar_toNat h]
      omega
    · rw [decChars_ge (by omega)]
      intro c hc
      rw [List.mem_append] at hc
      rcases hc with hc | hc
      · exact ih (n / 10) (Nat.div_lt_self (by omega) (by omega)) c hc
      · rw [List.mem_singleton] at hc
        subst hc
        rw [digChar_toNat (Nat.mod_lt _ (by omega))]
        have := Nat.mod_lt n (y := 10) (by omega)
        omega

theorem digitsNat_append (ds : List Char) (c : Char) :
    digitsNat (ds ++ [c]) = digitsNat ds * 10 + (c.toNat - 48) := by
  simp [digitsNat, List.foldl_append]

theorem digitsNat_decChars (n : Nat) : digitsNat (decChars n) = n := by
  induction n using Nat.strong_induction_on with
  | _ n ih =>
    by_cases h : n < 10
    · rw [decChars_lt h]
      simp [digitsNat, digChar_toNat h]
    · rw [decChars_ge (by omega), digitsNat_append,
        ih (n / 10) (Nat.div_lt_self (by omega) (by omega)),
        digChar_toNat (Nat.mod_lt _ (by omega))]
      omega

theorem decChars_cons (n : Nat) :
    ∃ d ds, decChars n = d :: ds ∧ 48 ≤ d.toNat ∧ d.toNat ≤ 57 ∧ (1 ≤ n → 49 ≤ d.toNat) := by
  induction n using Nat.strong_induction_on with
  | _ n ih =>
    by_cases h : n < 10
    · refine ⟨digChar n, [], decChars_lt h, ?_, ?_, ?_⟩
      · rw [digChar_toNat h]; omega
      · rw [digChar_toNat h]; omega
      · intro h1; rw [digChar_toNat h]; omega
    · obtain ⟨d, ds, hd, h1, h2, h3⟩ := ih (n / 10) (Nat.div_lt_self (by omega) (by omega))
      refine ⟨d, ds ++ [digChar (n % 10)], ?_, h1, h2, fun _ => h3 (by omega)⟩
      rw [decChars_ge (by omega), hd, List.cons_append]

/-! ### u64::from_str: soundness, completeness, and the decimal inverse -/

theorem digVal_isSome {c : Char} : (digVal c).isSome = true ↔ 48 ≤ c.toNat ∧ c.toNat ≤ 57 := by
  unfold digVal
  split <;> simp_all

theorem digVal_eq {c : Char} (h : (digVal c).isSome) : digVal c = some (c.toNat - 48) := by
  unfold digVal at h ⊢
  by_cases hc : 48 ≤ c.toNat ∧ c.toNat ≤ 57
  · rw [if_pos hc]
  · rw [if_neg hc] at h
    simp at h

theorem foldl_digits_le (ds : List Char) : ∀ acc : Nat,
    acc ≤ ds.foldl (fun a c => a * 10 + (c.toNat - 48)) acc := by
  induction ds with
  | nil => intro acc; simp
  | cons c t ih =>
    intro acc
    rw [List.foldl_cons]
    calc acc ≤ acc * 10 + (c.toNat - 48) := by omega
    _ ≤ _ := ih _

theorem fromStrLoop_ok (ds : List Char) : ∀ acc : Nat,
    (∀ c ∈ ds, (digVal c).isSome) →
    ds.foldl (fun a c => a * 10 + (c.toNat - 48)) acc ≤ u64Max →
    fromStrLoop acc ds = .ok (ds.foldl (fun a c => a * 10 + (c.toNat - 48)) acc) := by
  induction ds with
  | nil => intro acc _ _; rfl
  | cons c t ih =>
    intro acc hd hb
    have hcv : digVal c = some (c.toNat - 48) := digVal_eq (hd c (by simp))
    rw [List.foldl_cons] at hb ⊢
    have hstep : acc * 10 + (c.toNat - 48) ≤ u64Max :=
      le_trans (foldl_digits_le t _) hb
    simp only [fromStrLoop, hcv, if_pos hstep]
    exact ih _ (fun x hx => hd x (by simp [hx])) hb

theorem fromStrLoop_sound (ds : List Char) : ∀ acc n : Nat,
    fromStrLoop acc ds = .ok n →
    (∀ c ∈ ds, (digVal c).isSome) ∧
      n = ds.foldl (fun a c => a * 10 + (c.toNat - 48)) acc ∧
      (acc ≤ u64Max → n ≤ u64Max) := by
  induction ds with
  | nil =>
    intro acc n h
    simp only [fromStrLoop, Except.ok.injEq] at h
    subst h
    simp
  | cons c t ih =>
    intro acc n h
    simp only [fromStrLoop] at h
    cases hcv : digVal c with
    | none => rw [hcv] at h; simp at h
    | some d =>
      rw [hcv] at h
      simp only at h
      by_cases hb : acc * 10 + d ≤ u64Max
      · rw [if_pos hb] at h
        obtain ⟨h1, h2, h3⟩ := ih _ _ h
        have hd : d = c.toNat - 48 := by
          unfold digVal at hcv
          split at hcv
          · simp only [Option.some.injEq] at hcv; omega
          · simp at hcv
        refine ⟨?_, ?_, fun _ => h3 hb⟩
        · intro x hx
          rw [List.mem_cons] at hx
          rcases hx with rfl | hx
          · simp [hcv]
          · exact h1 x hx
        · rw [List.foldl_cons, ← hd]; exact h2
      · rw [if_neg hb] at h
        simp at h

/-! ### String escaping is inverted by the string reader -/

theorem hexVal_hexDig {d : Nat} (h : d < 16) : hexVal (hexDig d) = some d := by
  interval_cases d <;> decide

theorem readEsc_hex {n : Nat} (hn : n < 32) (rest : List Char) :
    readEsc ('u' :: '0' :: '0' :: hexDig (n / 16) :: hexDig (n % 16) :: rest)
      = .ok (Char.ofNat n, rest) := by
  have h16a : n / 16 < 16 := by omega
  have h16b : n % 16 < 16 := by omega
  show readHex ('0' :: '0' :: hexDig (n / 16) :: hexDig (n % 16) :: rest)
      = .ok (Char.ofNat n, rest)
  simp only [readHex, hex4, show hexVal '0' = some 0 from rfl,
    hexVal_hexDig h16a, hexVal_hexDig h16b]
  rw [if_pos (by omega : ((0 * 16 + 0) * 16 + n / 16) * 16 + n % 16 < 55296)]
  rw [show ((0 * 16 + 0) * 16 + n / 16) * 16 + n % 16 = n by omega]

theorem readStr_escChar (c : Char) (rest : List Char) (fuel : Nat) :
    readStr (fuel + 1) (escChar c ++ rest) =
      match readStr fuel rest with
      | .error e => .error e
      | .ok p => .ok (c :: p.1, p.2) := by
  by_cases hq : c = '"'
  · subst hq
    cases hr : readStr fuel rest <;> simp [escChar, readStr, readEsc, hr]
  by_cases hb : c = '\\'
  · subst hb
    cases hr : readStr fuel rest <;> simp [escChar, readStr, readEsc, hr]
  by_cases hc : c.toNat < 32
  · by_cases h8 : c.toNat = 8
    · rw [show c = Char.ofNat 8 from by rw [← h8, Char.ofNat_toNat]]
      cases hr : readStr fuel rest <;> simp [escChar, readStr, readEsc, hr]
    by_cases h9 : c.toNat = 9
    · rw [show c = Char.ofNat 9 from by rw [← h9, Char.ofNat_toNat]]
      cases hr : readStr fuel rest <;> simp [escChar, readStr, readEsc, hr]
    by_cases h10 : c.toNat = 10
    · rw [show c = Char.ofNat 10 from by rw [← h10, Char.ofNat_toNat]]
      cases hr : readStr fuel rest <;> simp [escChar, readStr, readEsc, hr]
    by_cases h12 : c.toNat = 12
    · rw [show c = Char.ofNat 12 from by rw [← h12, Char.ofNat_toNat]]
      cases hr : readStr fuel rest <;> simp [escChar, readStr, readEsc, hr]
    by_cases h13 : c.toNat = 13
    · rw [show c = Char.ofNat 13 from by rw [← h13, Char.ofNat_toNat]]
      cases hr : readStr fuel rest <;> simp [escChar, readStr, readEsc, hr]
    · rw [show escChar c = ['\\', 'u', '0', '0', hexDig (c.toNat / 16), hexDig (c.toNat % 16)]
        from by simp [escChar, hq, hb, hc, h8, h9, h10, h12, h13]]
      cases hr : readStr fuel rest <;>
        simp [readStr, readEsc_hex hc, Char.ofNat_toNat, hr]
  · rw [show escChar c = [c] from by simp [escChar, hq, hb, hc], List.singleton_append]
    cases hr : readStr fuel rest <;> simp [readStr, hq, hb, hc, hr]

theorem escBody_append (s t : List Char) : escBody (s ++ t) = escBody s ++ escBody t := by
  induction s with
  | nil => rfl
  | cons c cs ih => simp [escBody, ih]

theorem escChar_len (c : Char) : 1 ≤ (escChar c).length := by
  unfold escChar
  split_ifs <;> simp

theorem escBody_len (s : List Char) : s.length ≤ (escBody s).length := by
  induction s with
  | nil => simp [escBody]
  | cons c t ih =>
    have := escChar_len c
    simp only [escBody, List.length_append, List.length_cons]
    omega

theorem readStr_escBody (s : List Char) : ∀ (rest : List Char) (fuel : Nat),
    s.length < fuel → readStr fuel (escBody s ++ '"' :: rest) = .ok (s, rest) := by
  induction s with
  | nil =>
    intro rest fuel hf
    obtain ⟨f, rfl⟩ : ∃ f, fuel = f + 1 := ⟨fuel - 1, by omega⟩
    rfl
  | cons c t ih =>
    intro rest fuel hf
    obtain ⟨f, rfl⟩ : ∃ f, fuel = f + 1 := ⟨fuel - 1, by omega⟩
    rw [show escBody (c :: t) ++ '"' :: rest = escChar c ++ (escBody t ++ '"' :: rest) from by
      simp [escBody]]
    rw [readStr_escChar, ih rest f (by simp only [List.length_cons] at hf; omega)]

/-- The string reader at the fuel the parser actually supplies (the
remaining input's length plus one). -/
theorem readStr_at_len (s rest : List Char) :
    readStr ((escBody s ++ '"' :: rest).length + 1) (escBody s ++ '"' :: rest)
      = .ok (s, rest) := by
  apply readStr_escBody
  have := escBody_len s
  simp only [List.length_append, List.length_cons]
  omega

/-- As `readStr_at_len`, but with the fuel in the shape left behind by
list-length normalization. -/
theorem readStr_len_add (s rest : List Char) (m : Nat) :
    readStr ((escBody s).length + m + 1) (escBody s ++ '"' :: rest) = .ok (s, rest) :=
  readStr_escBody s rest _ (by have := escBody_len s; omega)

/-! ### Number text is inverted by the number reader -/

/-- A continuation the value grammar guarantees after a nested value:
empty input or a separator/closer. Such a continuation can never extend
a number literal. -/
def sealed : List Char → Prop
  | [] => True
  | c :: _ => c = ',' ∨ c = ']' ∨ c = '}'

def headNotDigit : List Char → Prop
  | [] => True
  | c :: _ => (digVal c).isSome = false

theorem sealed_not_digit {rest : List Char} (h : sealed rest) : headNotDigit rest := by
  cases rest with
  | nil => trivial
  | cons c t => rcases h with rfl | rfl | rfl <;> rfl

theorem numTail_sealed {n : Nat} {rest : List Char} (h : sealed rest) :
    numTail n rest = .ok (n, rest) := by
  cases rest with
  | nil => rfl
  | cons c t => rcases h with rfl | rfl | rfl <;> rfl

theorem takeDigits_app {ds : List Char} (hds : ∀ c ∈ ds, (digVal c).isSome) :
    ∀ rest, headNotDigit rest → takeDigits (ds ++ rest) = (ds, rest) := by
  induction ds with
  | nil =>
    intro rest hr
    cases rest with
    | nil => rfl
    | cons c t =>
      simp only [List.nil_append, takeDigits]
      rw [if_neg (by simpa [headNotDigit] using hr)]
  | cons c t ih =>
    intro rest hr
    have hc : (digVal c).isSome := hds c (by simp)
    have ht := ih (fun x hx => hds x (by simp [hx])) rest hr
    simp only [List.cons_append, takeDigits, if_pos hc, List.append_eq, ht]

theorem readNatNum_dec {m : Nat} {rest : List Char} (hr : sealed rest) :
    readNatNum (decChars m ++ rest) = .ok (m, rest) := by
  by_cases h0 : m = 0
  · subst h0
    rw [show decChars 0 = ['0'] from rfl, List.singleton_append]
    cases rest with
    | nil => rfl
    | cons c t => rcases hr with rfl | rfl | rfl <;> rfl
  · obtain ⟨d, ds, hd, h48, h57, h49x⟩ := decChars_cons m
    have h49 : 49 ≤ d.toNat := h49x (by omega)
    have hd0 : ¬ d = '0' := by
      intro he
      subst he
      have : ('0').toNat = 48 := rfl
      omega
    have hdig : (digVal d).isSome := digVal_isSome.mpr ⟨by omega, by omega⟩
    have hds : ∀ c ∈ ds, (digVal c).isSome := by
      intro c hc
      exact digVal_isSome.mpr (decChars_digits c (by rw [hd]; exact List.mem_cons_of_mem d hc))
    rw [hd, List.cons_append]
    simp only [readNatNum, if_neg hd0, hdig, if_pos]
    rw [takeDigits_app hds rest (sealed_not_digit hr)]
    have hval : digitsNat (d :: ds) = m := by rw [← hd]; exact digitsNat_decChars m
    simp only [hval, numTail_sealed hr]

theorem readNum_neg (rest : List Char) :
    readNum ('-' :: rest) =
      match readNatNum rest with
      | .error e => .error e
      | .ok p => .ok (.num (-(p.1 : Int)), p.2) := by
  cases h : readNatNum rest <;> simp [readNum, h]

theorem readNum_pos {d : Char} (hdm : ¬ d = '-') (rest : List Char) :
    readNum (d :: rest) =
      match readNatNum (d :: rest) with
      | .error e => .error e
      | .ok p => .ok (.num ((p.1 : Nat) : Int), p.2) := by
  rw [readNum.eq_def]
  split
  · rename_i heq
    rw [List.cons.injEq] at heq
    exact absurd heq.1 hdm
  · cases h : readNatNum (d :: rest) <;> simp [h]

theorem readNum_intChars (n : Int) {rest : List Char} (hr : sealed rest) :
    readNum (intChars n ++ rest) = .ok (.num n, rest) := by
  by_cases hn : n < 0
  · rw [show intChars n = '-' :: decChars n.natAbs from by simp [intChars, hn],
      List.cons_append, readNum_neg, readNatNum_dec hr]
    simp only
    rw [show -((n.natAbs : Nat) : Int) = n from by omega]
  · obtain ⟨d, ds, hd, h48, h57, _⟩ := decChars_cons n.natAbs
    have hdm : ¬ d = '-' := by
      intro he
      subst he
      have : ('-').toNat = 45 := rfl
      omega
    rw [show intChars n = decChars n.natAbs from by simp [intChars, hn], hd, List.cons_append,
      readNum_pos hdm, ← List.cons_append, ← hd, readNatNum_dec hr]
    simp only
    rw [show ((n.natAbs : Nat) : Int) = n from by omega]

theorem u64FromStr_decChars {n : Nat} (h : n ≤ u64Max) : u64FromStr (decChars n) = .ok n := by
  obtain ⟨d, ds, hd, h48, h57, _⟩ := decChars_cons n
  have hplus : ¬ d = '+' := by
    intro he
    subst he
    have : ('+').toNat = 43 := rfl
    omega
  have hds : ∀ c ∈ decChars n, (digVal c).isSome := fun c hc =>
    digVal_isSome.mpr (decChars_digits c hc)
  have hfold : (decChars n).foldl (fun a c => a * 10 + (c.toNat - 48)) 0 = n :=
    digitsNat_decChars n
  rw [hd]
  simp only [u64FromStr, if_neg hplus]
  rw [← hd, fromStrLoop_ok (decChars n) 0 hds (by rw [hfold]; exact h), hfold]

/-! ### Parsing a rendered value returns exactly that value

The fuel measure below bounds the parser recursion depth a value needs;
the top-level fuel (input length plus one) always covers it. -/

mutual
def needV : Json → Nat
  | .arr xs => 1 + needI xs
  | .obj fs => 1 + needP fs
  | _ => 1
def needI : List Json → Nat
  | [] => 0
  | x :: xs => 1 + needV x + needI xs
def needP : List (List Char × Json) → Nat
  | [] => 0
  | f :: fs => 1 + needV f.2 + needP fs
end

theorem needV_pos (v : Json) : 1 ≤ needV v := by
  cases v <;> simp [needV]

theorem render_head (v : Json) :
    ∃ c t, render v = c :: t ∧
      ¬(c.toNat = 32 ∨ c.toNat = 9 ∨ c.toNat = 10 ∨ c.toNat = 13) ∧ ¬ c = ']' ∧ ¬ c = '}' := by
  cases v with
  | num n =>
    by_cases hn : n < 0
    · exact ⟨'-', decChars n.natAbs, by simp [render, intChars, hn], by decide⟩
    · obtain ⟨d, ds, hd, h48, h57, _⟩ := decChars_cons n.natAbs
      have nob : ¬ d = ']' := fun he => absurd h57 (by rw [he]; decide)
      have noc : ¬ d = '}' := fun he => absurd h57 (by rw [he]; decide)
      exact ⟨d, ds, by simp [render, intChars, hn, hd], by omega, nob, noc⟩
  | str s => exact ⟨'"', _, rfl, by decide⟩
  | arr xs => exact ⟨'[', _, rfl, by decide⟩
  | obj fs => exact ⟨'{', _, rfl, by decide⟩
  | bool b =>
    cases b
    · exact ⟨'f', _, rfl, by decide⟩
    · exact ⟨'t', _, rfl, by decide⟩
  | null => exact ⟨'n', _, rfl, by decide⟩

theorem num_head_facts {d : Char} (hd : d = '-' ∨ (digVal d).isSome) :
    ¬(d.toNat = 32 ∨ d.toNat = 9 ∨ d.toNat = 10 ∨ d.toNat = 13) ∧
      ¬ d = 'n' ∧ ¬ d = 't' ∧ ¬ d = 'f' ∧ ¬ d = '"' ∧ ¬ d = '{' ∧ ¬ d = '[' := by
  have hval : d.toNat = 45 ∨ (48 ≤ d.toNat ∧ d.toNat ≤ 57) := by
    rcases hd with rfl | hd
    · left; rfl
    · right; exact digVal_isSome.mp hd
  refine ⟨by omega, ?_, ?_, ?_, ?_, ?_, ?_⟩ <;>
    (intro he; subst he; exact absurd hval (by decide))

theorem dropWs_quote (R : List Char) : dropWs ('"' :: R) = '"' :: R := rfl
theorem dropWs_colon (R : List Char) : dropWs (':' :: R) = ':' :: R := rfl
theorem dropWs_comma (R : List Char) : dropWs (',' :: R) = ',' :: R := rfl
theorem dropWs_rbracket (R : List Char) : dropWs (']' :: R) = ']' :: R := rfl
theorem dropWs_rbrace (R : List Char) : dropWs ('}' :: R) = '}' :: R := rfl

/-- The value reader hands a number-headed input to the number reader. -/
theorem readValue_to_num (f : Nat) {d : Char} (t : List Char)
    (hd : d = '-' ∨ (digVal d).isSome) :
    readValue (f + 1) (d :: t) = readNum (d :: t) := by
  obtain ⟨hws, hn, ht, hf, hq, hbo, hbk⟩ := num_head_facts hd
  simp only [readValue]
  rw [show dropWs (d :: t) = d :: t from by simp [dropWs, hws]]
  split
  · rename_i heq; simp at heq
  · rename_i r heq
    rw [List.cons.injEq] at heq
    exact absurd heq.1 hq
  · rename_i r heq
    rw [List.cons.injEq] at heq
    exact absurd heq.1 hbo
  · rename_i r heq
    rw [List.cons.injEq] at heq
    exact absurd heq.1 hbk
  · rename_i r heq
    rw [List.cons.injEq] at heq
    exact absurd heq.1 hn
  · rename_i r heq
    rw [List.cons.injEq] at heq
    exact absurd heq.1 ht
  · rename_i r heq
    rw [List.cons.injEq] at heq
    exact absurd heq.1 hf
  · rename_i c r heq
    rw [List.cons.injEq] at heq
    obtain ⟨rfl, rfl⟩ := heq
    rw [if_pos hd]

/-- The value reader's array branch wraps the element reader whenever the
element list is nonempty (its first rendered element cannot start with
`]`). -/
theorem readValue_arr_cons (f : Nat) (x : Json) (xs : List Json) (rest : List Char) :
    readValue (f + 1) ('[' :: (renderItems (x :: xs) ++ ']' :: rest)) =
      match readItems f (renderItems (x :: xs) ++ ']' :: rest) with
      | .error e => .error e
      | .ok p => .ok (.arr p.1, p.2) := by
  obtain ⟨c, t, hx, hws, hbr, _⟩ := render_head x
  obtain ⟨T, hT⟩ : ∃ T, renderItems (x :: xs) ++ ']' :: rest = c :: T := by
    cases xs with
    | nil => exact ⟨t ++ ']' :: rest, by simp [renderItems, hx]⟩
    | cons y ys =>
      exact ⟨t ++ ',' :: renderItems (y :: ys) ++ ']' :: rest, by simp [renderItems, hx]⟩
  simp only [readValue]
  rw [show dropWs ('[' :: (renderItems (x :: xs) ++ ']' :: rest))
      = '[' :: (renderItems (x :: xs) ++ ']' :: rest) from rfl]
  simp only [hT]
  rw [show dropWs (c :: T) = c :: T from by simp [dropWs, hws]]
  split
  · rename_i r2 heq
    rw [List.cons.injEq] at heq
    exact absurd heq.1 hbr
  · rw [← hT]
    cases hri : readItems f (renderItems (x :: xs) ++ ']' :: rest) <;> simp

/-- The value reader's object branch wraps the member reader whenever the
member list is nonempty (it starts with the first key's quote). -/
theorem readValue_obj_cons (f : Nat) (k : List Char) (v : Json)
    (fs : List (List Char × Json)) (rest : List Char) :
    readValue (f + 1) ('{' :: (renderPairs ((k, v) :: fs) ++ '}' :: rest)) =
      match readPairs f (renderPairs ((k, v) :: fs) ++ '}' :: rest) with
      | .error e => .error e
      | .ok p => .ok (.obj p.1, p.2) := by
  obtain ⟨T, hT⟩ : ∃ T, renderPairs ((k, v) :: fs) ++ '}' :: rest = '"' :: T := by
    cases fs with
    | nil =>
      exact ⟨escBody k ++ '"' :: (':' :: (render v ++ '}' :: rest)),
        by simp [renderPairs, strQuote]⟩
    | cons g gs =>
      exact ⟨escBody k ++ '"' :: (':' :: (render v
          ++ ',' :: (renderPairs (g :: gs) ++ '}' :: rest))),
        by simp [renderPairs, strQuote]⟩
  simp only [readValue]
  rw [show dropWs ('{' :: (renderPairs ((k, v) :: fs) ++ '}' :: rest))
      = '{' :: (renderPairs ((k, v) :: fs) ++ '}' :: rest) from rfl]
  simp only [hT]
  rw [dropWs_quote]
  split
  · rename_i r2 heq
    rw [List.cons.injEq] at heq
    exact absurd heq.1 (by decide)
  · rw [← hT]
    cases hp : readPairs f (renderPairs ((k, v) :: fs) ++ '}' :: rest) <;> simp

mutual
theorem rt_value : ∀ (v : Json) (fuel : Nat) (rest : List Char),
    needV v ≤ fuel → sealed rest → readValue fuel (render v ++ rest) = .ok (v, rest)
  | .null, fuel, rest, hf, _ => by
    simp only [needV] at hf
    obtain ⟨f, rfl⟩ : ∃ f, fuel = f + 1 := ⟨fuel - 1, by omega⟩
    rfl
  | .bool true, fuel, rest, hf, _ => by
    simp only [needV] at hf
    obtain ⟨f, rfl⟩ : ∃ f, fuel = f + 1 := ⟨fuel - 1, by omega⟩
    rfl
  | .bool false, fuel, rest, hf, _ => by
    simp only [needV] at hf
    obtain ⟨f, rfl⟩ : ∃ f, fuel = f + 1 := ⟨fuel - 1, by omega⟩
    rfl
  | .num n, fuel, rest, hf, hr => by
    simp only [needV] at hf
    obtain ⟨f, rfl⟩ : ∃ f, fuel = f + 1 := ⟨fuel - 1, by omega⟩
    obtain ⟨d, t, hdt, hd⟩ : ∃ d t, intChars n ++ rest = d :: t ∧
        (d = '-' ∨ (digVal d).isSome) := by
      by_cases hn : n < 0
      · exact ⟨'-', decChars n.natAbs ++ rest,
          by simp [intChars, hn], Or.inl rfl⟩
      · obtain ⟨d, ds, hds, h48, h57, _⟩ := decChars_cons n.natAbs
        exact ⟨d, ds ++ rest, by simp [intChars, hn, hds],
          Or.inr (digVal_isSome.mpr ⟨h48, h57⟩)⟩
    show readValue (f + 1) (intChars n ++ rest) = .ok (.num n, rest)
    rw [hdt, readValue_to_num f t hd, ← hdt, readNum_intChars n hr]
  | .str s, fuel, rest, hf, _ => by
    simp only [needV] at hf
    obtain ⟨f, rfl⟩ : ∃ f, fuel = f + 1 := ⟨fuel - 1, by omega⟩
    show readValue (f + 1) (strQuote s ++ rest) = .ok (.str s, rest)
    rw [show strQuote s ++ rest = '"' :: (escBody s ++ '"' :: rest) from by
      simp [strQuote]]
    simp only [readValue]
    rw [show dropWs ('"' :: (escBody s ++ '"' :: rest))
        = '"' :: (escBody s ++ '"' :: rest) from rfl]
    simp only [readStr_at_len]
  | .arr [], fuel, rest, hf, _ => by
    simp only [needV] at hf
    obtain ⟨f, rfl⟩ : ∃ f, fuel = f + 1 := ⟨fuel - 1, by omega⟩
    rfl
  | .arr (x :: xs), fuel, rest, hf, _ => by
    simp only [needV, needI] at hf
    obtain ⟨f, rfl⟩ : ∃ f, fuel = f + 1 := ⟨fuel - 1, by omega⟩
    show readValue (f + 1) (('[' :: (renderItems (x :: xs) ++ [']'])) ++ rest)
        = .ok (.arr (x :: xs), rest)
    rw [show ('[' :: (renderItems (x :: xs) ++ [']'])) ++ rest
        = '[' :: (renderItems (x :: xs) ++ ']' :: rest) from by simp]
    rw [readValue_arr_cons, rt_items x xs f rest (by simp [needI]; omega)]
  | .obj [], fuel, rest, hf, _ => by
    simp only [needV] at hf
    obtain ⟨f, rfl⟩ : ∃ f, fuel = f + 1 := ⟨fuel - 1, by omega⟩
    rfl
  | .obj ((k, v) :: fs), fuel, rest, hf, _ => by
    simp only [needV, needP] at hf
    obtain ⟨f, rfl⟩ : ∃ f, fuel = f + 1 := ⟨fuel - 1, by omega⟩
    show readValue (f + 1) (('{' :: (renderPairs ((k, v) :: fs) ++ ['}'])) ++ rest)
        = .ok (.obj ((k, v) :: fs), rest)
    rw [show ('{' :: (renderPairs ((k, v) :: fs) ++ ['}'])) ++ rest
        = '{' :: (renderPairs ((k, v) :: fs) ++ '}' :: rest) from by simp]
    rw [readValue_obj_cons, rt_pairs (k, v) fs f rest (by simp [needP]; omega)]
theorem rt_items : ∀ (x : Json) (xs : List Json) (fuel : Nat) (rest : List Char),
    needI (x :: xs) ≤ fuel →
    readItems fuel (renderItems (x :: xs) ++ ']' :: rest) = .ok (x :: xs, rest)
  | x, [], fuel, rest, hf => by
    simp only [needI] at hf
    obtain ⟨f, rfl⟩ : ∃ f, fuel = f + 1 := ⟨fuel - 1, by omega⟩
    rw [show renderItems [x] ++ ']' :: rest = render x ++ ']' :: rest from by
      simp [renderItems]]
    simp only [readItems]
    rw [rt_value x f (']' :: rest) (by omega) (Or.inr (Or.inl rfl))]
    simp [dropWs_rbracket]
  | x, y :: ys, fuel, rest, hf => by
    simp only [needI] at hf
    obtain ⟨f, rfl⟩ : ∃ f, fuel = f + 1 := ⟨fuel - 1, by omega⟩
    rw [show renderItems (x :: y :: ys) ++ ']' :: rest
        = render x ++ ',' :: (renderItems (y :: ys) ++ ']' :: rest) from by
      simp [renderItems]]
    simp only [readItems]
    rw [rt_value x f (',' :: (renderItems (y :: ys) ++ ']' :: rest)) (by omega)
      (Or.inl rfl)]
    have hri := rt_items y ys f rest (by simp only [needI] at hf ⊢; omega)
    simp [dropWs_comma, hri]
theorem rt_pairs : ∀ (kv : List Char × Json) (fs : List (List Char × Json))
    (fuel : Nat) (rest : List Char),
    needP (kv :: fs) ≤ fuel →
    readPairs fuel (renderPairs (kv :: fs) ++ '}' :: rest) = .ok (kv :: fs, rest)
  | (k, v), [], fuel, rest, hf => by
    simp only [needP] at hf
    obtain ⟨f, rfl⟩ : ∃ f, fuel = f + 1 := ⟨fuel - 1, by omega⟩
    rw [show renderPairs [(k, v)] ++ '}' :: rest
        = '"' :: (escBody k ++ '"' :: (':' :: (render v ++ '}' :: rest))) from by
      simp [renderPairs, strQuote]]
    simp only [readPairs]
    rw [dropWs_quote]
    have hv := rt_value v f ('}' :: rest) (by omega) (Or.inr (Or.inr rfl))
    simp [readStr_at_len, readStr_len_add, dropWs_colon, dropWs_rbrace, hv]
  | (k, v), (k2, v2) :: fs, fuel, rest, hf => by
    simp only [needP] at hf
    obtain ⟨f, rfl⟩ : ∃ f, fuel = f + 1 := ⟨fuel - 1, by omega⟩
    rw [show renderPairs ((k, v) :: (k2, v2) :: fs) ++ '}' :: rest
        = '"' :: (escBody k ++ '"' :: (':' :: (render v
            ++ ',' :: (renderPairs ((k2, v2) :: fs) ++ '}' :: rest)))) from by
      simp [renderPairs, strQuote]]
    simp only [readPairs]
    rw [dropWs_quote]
    have hv := rt_value v f (',' :: (renderPairs ((k2, v2) :: fs) ++ '}' :: rest))
      (by omega) (Or.inl rfl)
    have hps := rt_pairs (k2, v2) fs f rest (by simp only [needP] at hf ⊢; omega)
    simp [readStr_at_len, readStr_len_add, dropWs_colon, dropWs_comma, hv, hps]
end

mutual
theorem needV_le : ∀ v : Json, needV v ≤ (render v).length
  | .null => by simp [needV, render]
  | .bool true => by simp [needV, render]
  | .bool false => by simp [needV, render]
  | .num n => by
    obtain ⟨d, ds, hd, _, _, _⟩ := decChars_cons n.natAbs
    by_cases hn : n < 0 <;> simp [needV, render, intChars, hn, hd]
  | .str s => by simp [needV, render, strQuote]
  | .arr xs => by
    have h := needI_le xs
    simp only [needV, render, List.length_cons, List.length_append, List.length_singleton]
    omega
  | .obj fs => by
    have h := needP_le fs
    simp only [needV, render, List.length_cons, List.length_append, List.length_singleton]
    omega
theorem needI_le : ∀ xs : List Json, needI xs ≤ (renderItems xs).length + 1
  | [] => by simp [needI]
  | [x] => by
    have h := needV_le x
    simp only [needI, needI, renderItems]
    omega
  | x :: y :: ys => by
    have h1 := needV_le x
    have h2 := needI_le (y :: ys)
    simp only [needI] at h2
    simp only [needI, renderItems, List.length_append, List.length_cons]
    omega
theorem needP_le : ∀ fs : List (List Char × Json), needP fs ≤ (renderPairs fs).length + 1
  | [] => by simp [needP]
  | [(k, v)] => by
    have h := needV_le v
    simp only [needP, needP, renderPairs, strQuote, List.length_append, List.length_cons]
    omega
  | (k, v) :: (k2, v2) :: fs => by
    have h1 := needV_le v
    have h2 := needP_le ((k2, v2) :: fs)
    simp only [needP] at h2
    simp only [needP, renderPairs, strQuote, List.length_append, List.length_cons]
    omega
end

/-- serde_json parses its own compact rendering back to the same value. -/
theorem from_str_render (v : Json) : from_str (render v) = .ok v := by
  have h := rt_value v ((render v).length + 1) [] (by have := needV_le v; omega) trivial
  rw [List.append_nil] at h
  simp only [from_str, h]
  rfl

/-! ### Decoding the rendered wire shape recovers the account -/

theorem optKey_round (p : Option PublicKey) : optKeyFromValue (optKeyToValue p) = .ok p := by
  cases p with
  | none => rfl
  | some pk => rfl

theorem fromValue_toValue (a : BaseAccount)
    (han : a.account_number ≤ u64Max) (hsq : a.sequence ≤ u64Max) :
    BaseAccount.fromValue ((BaseAccountJson.from a).toValue) = .ok a := by
  have kna : ¬ (numKey = tagKey) := by decide
  have kaa : ¬ (addrKey = tagKey) := by decide
  have kab : ¬ (addrKey = numKey) := by decide
  have kpa : ¬ (pkKey = tagKey) := by decide
  have kpb : ¬ (pkKey = numKey) := by decide
  have kpc : ¬ (pkKey = addrKey) := by decide
  have ksa : ¬ (seqKey = tagKey) := by decide
  have ksb : ¬ (seqKey = numKey) := by decide
  have ksc : ¬ (seqKey = addrKey) := by decide
  have ksd : ¬ (seqKey = pkKey) := by decide
  simp only [BaseAccount.fromValue, BaseAccountJson.from, BaseAccountJson.toValue,
    BaseAccountJson.fromValue, readFields, putField, initSlots, string.serialize,
    string.deserialize, strFromValue, if_neg kna, if_neg kaa, if_neg kab, if_neg kpa,
    if_neg kpb, if_neg kpc, if_neg ksa, if_neg ksb, if_neg ksc, if_neg ksd,
    u64FromStr_decChars han, u64FromStr_decChars hsq, optKey_round, if_true,
    eq_self_iff_true]
  rfl

/-- `parse (render R) = R` at the text level, with the u64 range bounds
the Rust types enforce. -/
theorem from_json_to_json (a : BaseAccount)
    (han : a.account_number ≤ u64Max) (hsq : a.sequence ≤ u64Max) :
    BaseAccount.from_json (BaseAccount.to_json a) = .ok a := by
  unfold BaseAccount.from_json BaseAccount.to_json
  rw [show (String.mk (render (BaseAccountJson.from a).toValue)).data
      = render (BaseAccountJson.from a).toValue from rfl]
  rw [from_str_render]
  exact fromValue_toValue a han hsq

/-! ### Required fields: a slot the input never names stays empty -/

def lookupPairs : List (List Char × Json) → List Char → Option Json
  | [], _ => none
  | (k', v) :: fs, k => if k' = k then some v else lookupPairs fs k

/-- First value stored under a key, when the value is an object. -/
def Json.getKey (v : Json) (k : List Char) : Option Json :=
  match v with
  | .obj fs => lookupPairs fs k
  | _ => none

/-- The input parses to a JSON object that does not carry the key: the
premise of the missing-field claims, which are scoped to objects — a
JSON array has no named fields and is decoded positionally instead
(`BaseAccountJson.fromSeq`), so it can supply every field without ever
naming one. -/
def objectLacksKey (k : List Char) (s : String) : Bool :=
  match from_str s.data with
  | .ok (.obj fs) => !(Json.hasKey (.obj fs) k)
  | _ => false

theorem putField_address {sl : FieldSlots} {k : List Char} {v : Json} {sl' : FieldSlots}
    (h : putField sl k v = .ok sl') (hne : ¬ k = addrKey) : sl'.address = sl.address := by
  unfold putField at h
  split_ifs at h with h1 h2 h3 h4
  · (repeat' split at h) <;> simp_all <;> (subst h; rfl)
  · (repeat' split at h) <;> simp_all <;> (subst h; rfl)
  · (repeat' split at h) <;> simp_all <;> (subst h; rfl)
  · (repeat' split at h) <;> simp_all <;> (subst h; rfl)
  · simp_all

theorem putField_type_url {sl : FieldSlots} {k : List Char} {v : Json} {sl' : FieldSlots}
    (h : putField sl k v = .ok sl') (hne : ¬ k = tagKey) : sl'.type_url = sl.type_url := by
  unfold putField at h
  split_ifs at h with h1 h2 h3 h4
  · (repeat' split at h) <;> simp_all <;> (subst h; rfl)
  · (repeat' split at h) <;> simp_all <;> (subst h; rfl)
  · (repeat' split at h) <;> simp_all <;> (subst h; rfl)
  · (repeat' split at h) <;> simp_all <;> (subst h; rfl)
  · simp_all

theorem readFields_address : ∀ (fs : List (List Char × Json)) {sl sl' : FieldSlots},
    readFields sl fs = .ok sl' → (∀ p ∈ fs, ¬ p.1 = addrKey) → sl'.address = sl.address
  | [], sl, sl', h, _ => by
    simp only [readFields, Except.ok.injEq] at h
    rw [← h]
  | (k, v) :: fs, sl, sl', h, hk => by
    simp only [readFields] at h
    cases hpf : putField sl k v with
    | error e => rw [hpf] at h; simp at h
    | ok sl2 =>
      rw [hpf] at h
      simp only at h
      rw [readFields_address fs h (fun q hq => hk q (List.mem_cons_of_mem _ hq)),
        putField_address hpf (hk (k, v) (List.mem_cons_self _ _))]

theorem readFields_type_url : ∀ (fs : List (List Char × Json)) {sl sl' : FieldSlots},
    readFields sl fs = .ok sl' → (∀ p ∈ fs, ¬ p.1 = tagKey) → sl'.type_url = sl.type_url
  | [], sl, sl', h, _ => by
    simp only [readFields, Except.ok.injEq] at h
    rw [← h]
  | (k, v) :: fs, sl, sl', h, hk => by
    simp only [readFields] at h
    cases hpf : putField sl k v with
    | error e => rw [hpf] at h; simp at h
    | ok sl2 =>
      rw [hpf] at h
      simp only at h
      rw [readFields_type_url fs h (fun q hq => hk q (List.mem_cons_of_mem _ hq)),
        putField_type_url hpf (hk (k, v) (List.mem_cons_self _ _))]

theorem hasKey_false_not_mem {fs : List (List Char × Json)} {k : List Char}
    (h : Json.hasKey (.obj fs) k = false) : ∀ p ∈ fs, ¬ p.1 = k := by
  simp only [Json.hasKey, List.any_eq_false] at h
  intro p hp he
  have hne := h p hp
  rw [he] at hne
  simp at hne

theorem fromValue_missing_address {fs : List (List Char × Json)}
    (h : Json.hasKey (.obj fs) addrKey = false) :
    ∃ e, BaseAccount.fromValue (.obj fs) = .error e := by
  unfold BaseAccount.fromValue BaseAccountJson.fromValue
  cases hrf : readFields initSlots fs with
  | error e => exact ⟨e, by simp [hrf]⟩
  | ok sl =>
    have haddr : sl.address = none := by
      rw [readFields_address fs hrf (hasKey_false_not_mem h)]
      rfl
    cases ht : sl.type_url with
    | none => exact ⟨.missingField tagKey, by simp [hrf, ht]⟩
    | some t =>
      cases hn : sl.account_number with
      | none => exact ⟨.missingField numKey, by simp [hrf, ht, hn]⟩
      | some n =>
        exact ⟨.missingField addrKey, by simp [hrf, ht, hn, haddr]⟩

theorem fromValue_missing_tag {fs : List (List Char × Json)}
    (h : Json.hasKey (.obj fs) tagKey = false) :
    ∃ e, BaseAccount.fromValue (.obj fs) = .error e := by
  unfold BaseAccount.fromValue BaseAccountJson.fromValue
  cases hrf : readFields initSlots fs with
  | error e => exact ⟨e, by simp [hrf]⟩
  | ok sl =>
    have htag : sl.type_url = none := by
      rw [readFields_type_url fs hrf (hasKey_false_not_mem h)]
      rfl
    exact ⟨.missingField tagKey, by simp [hrf, htag]⟩

theorem from_json_object_lacking {k : List Char} {s : String}
    (hk : objectLacksKey k s = true)
    (hmiss : ∀ fs : List (List Char × Json), Json.hasKey (.obj fs) k = false →
      ∃ e, BaseAccount.fromValue (.obj fs) = .error e) :
    ∃ e, BaseAccount.from_json s = .error e := by
  unfold BaseAccount.from_json
  unfold objectLacksKey at hk
  cases hfs : from_str s.data with
  | error e => rw [hfs] at hk; simp at hk
  | ok v =>
    rw [hfs] at hk
    cases v with
    | obj fs =>
      simp only [Bool.not_eq_true'] at hk
      obtain ⟨e, he⟩ := hmiss fs hk
      exact ⟨e, he⟩
    | null => simp at hk
    | bool b => simp at hk
    | num n => simp at hk
    | str t => simp at hk
    | arr xs => simp at hk

/-! ## The claims -/

/-- C3: conversion from the wire shape to `BaseAccount` is total: for
every `BaseAccountJson`, whatever its `@type` tag holds (including
values different from the fixed constant), `try_from` returns `Ok` with
the four data fields copied, and never an error. -/
theorem c3_try_from_total (j : BaseAccountJson) :
    BaseAccount.try_from j =
      .ok { address := j.address, pub_key := j.pub_key,
            account_number := j.account_number, sequence := j.sequence } := rfl

/-- C5: for every `n` in [0, 2^64 - 1], rendering `n` as a decimal JSON
string through the string-codec adapter and decoding that string back
yields exactly `n`. -/
theorem c5_numeric_fidelity (n : Nat) (h : n ≤ u64Max) :
    string.deserialize numKey (string.serialize n) = .ok n := by
  simp only [string.serialize, string.deserialize, u64FromStr_decChars h]

/-- Witness for C5 at the example's account number. -/
theorem c5_numeric_fidelity_witness :
    2932070 ≤ u64Max ∧
      string.deserialize numKey (string.serialize 2932070) = .ok 2932070 :=
  ⟨by decide, c5_numeric_fidelity 2932070 (by decide)⟩

/-- C2 counterexample: the claim says a numeric-field string containing
a sign (or any non-digit) must fail, but u64 parsing in core::num
accepts a single leading '+', so the adapter decodes the string "+0"
successfully to 0. -/
theorem c2_counterexample :
    string.deserialize numKey (.str ['+', '0']) = .ok 0 := rfl

def plusStripped : List Char → List Char
  | [] => []
  | c :: cs => if c = '+' then cs else c :: cs

/-- C2 (amended): decoding a numeric-field string succeeds exactly when,
after an optional single leading '+', the string is a nonempty run of
ASCII digits denoting a value within the u64 range — so a '-', any
other non-digit, an embedded sign, the empty string and any value
beyond 2^64 - 1 all fail; in particular the overflow example
"99999999999999999999" fails with the overflow error. -/
theorem c2_number_strings :
    (∀ (s : List Char) (n : Nat), u64FromStr s = .ok n ↔
      (plusStripped s ≠ [] ∧ (∀ c ∈ plusStripped s, 48 ≤ c.toNat ∧ c.toNat ≤ 57) ∧
        digitsNat (plusStripped s) = n ∧ n ≤ u64Max)) ∧
      string.deserialize numKey (.str "99999999999999999999".data)
        = .error (.malformedNumber numKey .posOverflow) := by
  constructor
  · intro s n
    constructor
    · intro h
      match s with
      | [] => exact absurd h (by simp [u64FromStr])
      | c :: cs =>
        by_cases hp : c = '+'
        · subst hp
          cases cs with
          | nil => exact absurd h (by simp [u64FromStr])
          | cons d ds =>
            simp only [u64FromStr, if_pos rfl] at h
            obtain ⟨hdig, hval, hbound⟩ := fromStrLoop_sound _ _ _ h
            refine ⟨by simp [plusStripped], ?_, ?_, hbound (Nat.zero_le _)⟩
            · intro x hx
              rw [show plusStripped ('+' :: d :: ds) = d :: ds from by simp [plusStripped]] at hx
              exact digVal_isSome.mp (hdig x hx)
            · rw [show plusStripped ('+' :: d :: ds) = d :: ds from by simp [plusStripped]]
              exact hval.symm
        · simp only [u64FromStr, if_neg hp] at h
          obtain ⟨hdig, hval, hbound⟩ := fromStrLoop_sound _ _ _ h
          have hps : plusStripped (c :: cs) = c :: cs := by simp [plusStripped, hp]
          refine ⟨by simp [hps], ?_, ?_, hbound (Nat.zero_le _)⟩
          · intro x hx
            rw [hps] at hx
            exact digVal_isSome.mp (hdig x hx)
          · rw [hps]
            exact hval.symm
    · rintro ⟨hne, hdig, hval, hbound⟩
      match s with
      | [] => exact absurd (show plusStripped [] = [] from rfl) hne
      | c :: cs =>
        by_cases hp : c = '+'
        · subst hp
          have hps : plusStripped ('+' :: cs) = cs := by simp [plusStripped]
          rw [hps] at hne hdig hval
          cases cs with
          | nil => exact absurd rfl hne
          | cons d ds =>
            simp only [u64FromStr, if_pos rfl]
            rw [fromStrLoop_ok _ _ (fun x hx => digVal_isSome.mpr (hdig x hx))
              (by rw [show (d :: ds).foldl (fun a c => a * 10 + (c.toNat - 48)) 0
                    = digitsNat (d :: ds) from rfl, hval]; exact hbound)]
            rw [show (d :: ds).foldl (fun a c => a * 10 + (c.toNat - 48)) 0
              = digitsNat (d :: ds) from rfl, hval]
            simp
        · have hps : plusStripped (c :: cs) = c :: cs := by simp [plusStripped, hp]
          rw [hps] at hne hdig hval
          simp only [u64FromStr, if_neg hp]
          rw [fromStrLoop_ok _ _ (fun x hx => digVal_isSome.mpr (hdig x hx))
            (by rw [show (c :: cs).foldl (fun a c => a * 10 + (c.toNat - 48)) 0
                  = digitsNat (c :: cs) from rfl, hval]; exact hbound)]
          rw [show (c :: cs).foldl (fun a c => a * 10 + (c.toNat - 48)) 0
            = digitsNat (c :: cs) from rfl, hval]
  · rfl

/-- Witness for C2's amended characterization at a concrete input: the
plain digit string "18" decodes to 18 through the right-to-left
direction of the equivalence. -/
theorem c2_number_strings_witness :
    u64FromStr ['1', '8'] = .ok 18 :=
  (c2_number_strings.1 ['1', '8'] 18).mpr (by decide)

/-- C8: encoding always succeeds and yields valid JSON text: `to_json`
is total by construction (the model's public-key serializer is total,
which is the claim's precondition), and parsing its output as JSON
succeeds, producing exactly the serialized wire value — so the panic
branch of `to_json` is unreachable. -/
theorem c8_to_json_valid (a : BaseAccount) :
    from_str (BaseAccount.to_json a).data = .ok (BaseAccountJson.from a).toValue := by
  rw [show (BaseAccount.to_json a).data = render (BaseAccountJson.from a).toValue from rfl]
  exact from_str_render _

def tagMismatchText : String :=
  "\x7b\"@type\":\"x\",\"account_number\":\"1\",\"address\":\"a\",\"pub_key\":null,\"sequence\":\"2\"\x7d"

/-- C1 counterexample: a valid wire text with the five fields in the
fixed order whose `@type` differs from the fixed constant decodes
successfully (the tag is not checked and not retained), but re-rendering
writes the constant, so `render(parse(T))` differs from `T`: the
exact-text round trip does not hold for every valid wire text. -/
theorem c1_counterexample :
    BaseAccount.from_json tagMismatchText
        = .ok { address := ['a'], pub_key := none, account_number := 1, sequence := 2 } ∧
      ¬ BaseAccount.to_json
          { address := ['a'], pub_key := none, account_number := 1, sequence := 2 }
        = tagMismatchText := by
  refine ⟨rfl, ?_⟩
  decide

/-- C1 (amended): the round trip holds structurally, and textually on the
codec's canonical texts: for every account within the u64 range, parsing
the rendered text returns the same account, and re-rendering anything
the rendered text parses to reproduces that text byte for byte. For
arbitrary valid wire texts only this form survives — see the
counterexample, where a non-constant tag parses but re-renders
differently. -/
theorem c1_round_trip (a : BaseAccount)
    (han : a.account_number ≤ u64Max) (hsq : a.sequence ≤ u64Max) :
    BaseAccount.from_json (BaseAccount.to_json a) = .ok a ∧
      ∀ b, BaseAccount.from_json (BaseAccount.to_json a) = .ok b →
        BaseAccount.to_json b = BaseAccount.to_json a := by
  have h := from_json_to_json a han hsq
  refine ⟨h, fun b hb => ?_⟩
  rw [h] at hb
  injection hb with hab
  rw [← hab]

/-- Witness for C1's amended round trip at the repository's own example
account. -/
theorem c1_round_trip_witness :
    exampleAccount.account_number ≤ u64Max ∧ exampleAccount.sequence ≤ u64Max ∧
      BaseAccount.from_json (BaseAccount.to_json exampleAccount) = .ok exampleAccount :=
  ⟨by decide, by decide, (c1_round_trip exampleAccount (by decide) (by decide)).1⟩

def noAddressText : String :=
  "\x7b\"@type\":\"/cosmos.auth.v1beta1.BaseAccount\",\"account_number\":\"1\",\"pub_key\":null,\"sequence\":\"2\"\x7d"

/-- C6: an input JSON object in which the required `address` field is
missing never yields a BaseAccount: any text that parses to an object
lacking the key makes `from_json` return an error, and on the
otherwise-well-formed example the error is precisely the missing-field
error for `address` (the spec's InvalidJson class; in the code every
decode failure is the one serde_json error type). The claim is scoped
to objects: a JSON array has no named fields and decodes positionally
through `BaseAccountJson.fromSeq` instead. -/
theorem c6_missing_address :
    (∀ s : String, objectLacksKey addrKey s = true →
      ∃ e, BaseAccount.from_json s = .error e) ∧
      BaseAccount.from_json noAddressText = .error (.missingField addrKey) := by
  refine ⟨fun s h =>
    from_json_object_lacking h (fun fs hv => fromValue_missing_address hv), ?_⟩
  rfl

/-- Witness for C6 at a concrete address-less object input. -/
theorem c6_missing_address_witness :
    objectLacksKey addrKey noAddressText = true ∧
      ∃ e, BaseAccount.from_json noAddressText = .error e :=
  ⟨rfl, c6_missing_address.1 noAddressText rfl⟩

def noTagText : String :=
  "\x7b\"account_number\":\"7\",\"address\":\"abc\",\"pub_key\":null,\"sequence\":\"9\"\x7d"

def oddTagText : String :=
  "\x7b\"@type\":\"/not.the.Constant\",\"account_number\":\"7\",\"address\":\"abc\",\"pub_key\":null,\"sequence\":\"9\"\x7d"

/-- C9 (implicit): the `@type` field is required even though its value
is never checked: any input JSON object lacking the key fails to decode
(on the otherwise-well-formed instance with the missing-field error for
`@type`), while the same record with an arbitrary non-constant tag
decodes successfully. The claim speaks of input JSON objects; a JSON
array supplies the tag positionally through `BaseAccountJson.fromSeq`
and is outside its scope. -/
theorem c9_type_required :
    (∀ s : String, objectLacksKey tagKey s = true →
      ∃ e, BaseAccount.from_json s = .error e) ∧
      BaseAccount.from_json noTagText = .error (.missingField tagKey) ∧
      BaseAccount.from_json oddTagText
        = .ok { address := "abc".data, pub_key := none, account_number := 7, sequence := 9 } :=
  ⟨fun _ h => from_json_object_lacking h (fun _ hv => fromValue_missing_tag hv), rfl, rfl⟩

/-- Witness for C9 at a concrete tag-less object input. -/
theorem c9_type_required_witness :
    objectLacksKey tagKey noTagText = true ∧
      ∃ e, BaseAccount.from_json noTagText = .error e :=
  ⟨rfl, c9_type_required.1 noTagText rfl⟩

/-- C4: every encoded account carries the `@type` field equal to the
fixed constant, regardless of the account's contents: the wire shape
stores the constant, the serialized object maps "@type" to it, and the
rendered text contains the tag field verbatim. -/
theorem c4_tag_constant (a : BaseAccount) :
    (BaseAccountJson.from a).type_url = BaseAccount.TYPE_URL ∧
      Json.getKey ((BaseAccountJson.from a).toValue) tagKey
        = some (.str BaseAccount.TYPE_URL) ∧
      ∃ s t, (BaseAccount.to_json a).data
        = s ++ "\"@type\":\"/cosmos.auth.v1beta1.BaseAccount\"".data ++ t := by
  refine ⟨rfl, rfl, ['\x7b'],
    ',' :: (renderPairs [(numKey, string.serialize a.account_number),
      (addrKey, Json.str a.address), (pkKey, optKeyToValue a.pub_key),
      (seqKey, string.serialize a.sequence)] ++ ['\x7d']), ?_⟩
  have hchunk : "\"@type\":\"/cosmos.auth.v1beta1.BaseAccount\"".data
      = strQuote tagKey ++ ':' :: render (Json.str BaseAccount.TYPE_URL) := by decide
  rw [hchunk]
  show render (Json.obj ((tagKey, Json.str BaseAccount.TYPE_URL)
      :: [(numKey, string.serialize a.account_number), (addrKey, Json.str a.address),
          (pkKey, optKeyToValue a.pub_key), (seqKey, string.serialize a.sequence)])) = _
  simp [render, renderPairs]

def recordWith (tag ns addr : List Char) (pkv : Json) (ss : List Char) : Json :=
  .obj [(tagKey, .str tag), (numKey, .str ns), (addrKey, .str addr),
        (pkKey, pkv), (seqKey, .str ss)]

def recordSansKey (tag ns addr ss : List Char) : Json :=
  .obj [(tagKey, .str tag), (numKey, .str ns), (addrKey, .str addr), (seqKey, .str ss)]

/-- C7: decoding wire JSON with `pub_key` absent, or explicitly null,
yields an account with no public key; decoding with a well-formed key
object yields that key, kept verbatim (the public-key wire shape is
modelled from the spec as an opaque JSON object). The remaining fields
are arbitrary well-formed field texts. -/
theorem c7_optional_key (tag ns addr ss : List Char) (n s : Nat)
    (hn : u64FromStr ns = .ok n) (hs : u64FromStr ss = .ok s) :
    BaseAccount.fromValue (recordSansKey tag ns addr ss)
        = .ok { address := addr, pub_key := none, account_number := n, sequence := s } ∧
      BaseAccount.fromValue (recordWith tag ns addr .null ss)
        = .ok { address := addr, pub_key := none, account_number := n, sequence := s } ∧
      ∀ g, BaseAccount.fromValue (recordWith tag ns addr (.obj g) ss)
        = .ok { address := addr, pub_key := some ⟨g⟩, account_number := n, sequence := s } := by
  have kna : ¬ (numKey = tagKey) := by decide
  have kaa : ¬ (addrKey = tagKey) := by decide
  have kab : ¬ (addrKey = numKey) := by decide
  have kpa : ¬ (pkKey = tagKey) := by decide
  have kpb : ¬ (pkKey = numKey) := by decide
  have kpc : ¬ (pkKey = addrKey) := by decide
  have ksa : ¬ (seqKey = tagKey) := by decide
  have ksb : ¬ (seqKey = numKey) := by decide
  have ksc : ¬ (seqKey = addrKey) := by decide
  have ksd : ¬ (seqKey = pkKey) := by decide
  refine ⟨?_, ?_, fun g => ?_⟩ <;>
    simp only [recordWith, recordSansKey, BaseAccount.fromValue, BaseAccountJson.fromValue,
      readFields, putField, initSlots, strFromValue, string.deserialize, hn, hs,
      optKeyFromValue, PublicKey.fromValue, if_neg kna, if_neg kaa, if_neg kab,
      if_neg kpa, if_neg kpb, if_neg kpc, if_neg ksa, if_neg ksb, if_neg ksc,
      if_neg ksd, if_true, eq_self_iff_true] <;>
    rfl

/-- Witness for C7 at concrete field texts. -/
theorem c7_optional_key_witness :
    u64FromStr ['1'] = .ok 1 ∧ u64FromStr ['2'] = .ok 2 ∧
      BaseAccount.fromValue (recordSansKey ['t'] ['1'] ['a'] ['2'])
        = .ok { address := ['a'], pub_key := none, account_number := 1, sequence := 2 } :=
  ⟨rfl, rfl, (c7_optional_key ['t'] ['1'] ['a'] ['2'] 1 2 rfl rfl).1⟩

/-- C10 (implicit): an absent public key is always encoded as an
explicit null `pub_key` field, never omitted: the serialized wire object
maps "pub_key" to null exactly when the account's key is absent (and to
the key's own object otherwise), and in the absent case the rendered
text carries `"pub_key":null` verbatim. -/
theorem c10_pub_key_null (a : BaseAccount) :
    Json.getKey ((BaseAccountJson.from a).toValue) pkKey = some (optKeyToValue a.pub_key) ∧
      (a.pub_key = none →
        ∃ s t, (BaseAccount.to_json a).data = s ++ "\"pub_key\":null".data ++ t) := by
  refine ⟨rfl, fun hnone => ?_⟩
  refine ⟨'\x7b' :: (strQuote tagKey ++ ':' :: render (Json.str BaseAccount.TYPE_URL)
      ++ ',' :: (strQuote numKey ++ ':' :: render (string.serialize a.account_number)
      ++ ',' :: (strQuote addrKey ++ ':' :: render (Json.str a.address) ++ [',']))),
    ',' :: (strQuote seqKey ++ ':' :: render (string.serialize a.sequence) ++ ['\x7d']), ?_⟩
  have hmid : "\"pub_key\":null".data = strQuote pkKey ++ ':' :: render Json.null := by decide
  rw [hmid]
  show render (Json.obj ((tagKey, Json.str BaseAccount.TYPE_URL)
      :: [(numKey, string.serialize a.account_number), (addrKey, Json.str a.address),
          (pkKey, optKeyToValue a.pub_key), (seqKey, string.serialize a.sequence)])) = _
  rw [hnone]
  simp [render, renderPairs, optKeyToValue]

/-- Witness for C10 at a concrete key-less account. -/
theorem c10_pub_key_null_witness :
    ({ address := ['a'], pub_key := none, account_number := 1, sequence := 2 }
        : BaseAccount).pub_key = none ∧
      ∃ s t, (BaseAccount.to_json
          { address := ['a'], pub_key := none, account_number := 1, sequence := 2 }).data
        = s ++ "\"pub_key\":null".data ++ t :=
  ⟨rfl, (c10_pub_key_null
    { address := ['a'], pub_key := none, account_number := 1, sequence := 2 }).2 rfl⟩

end Cosmrs
